import Mathlib

/-!
# Verification of the document-aligner core

Shallow embedding of the document-aligner repository (`document.h`,
`main.cpp`): the TF-IDF document model, the document-frequency
aggregation pass, the sparse merge-join alignment scorer, the bounded
blocking work queue, the worker pool with its sentinel-based shutdown
protocol, and the two token/URL pairing read loops of `main`.

Term hashes (`uint64_t` in the source, used only for equality and
`<`-comparison, never for arithmetic) are embedded as `Nat`; TF-IDF
weights (`float` in the source, used only with `+`, `*` and `>=`, with
additions performed in a fixed merge order) are embedded as `Rat`.
-/

namespace DocAligner

/-- `WordScore` from `document.h`: one entry of the sorted sparse score
vector, a term hash paired with its TF-IDF weight. -/
structure WordScore where
  hash : Nat
  tfidf : Rat
  deriving Repr, DecidableEq

/-- `Document` as used by `main.cpp`: identifier/URL label, the raw
`vocab` term-count map (a `std::map`, so iteration is in strictly
ascending key order with no duplicate keys — stated as hypotheses where
needed), and the `wordvec` sparse score vector filled in by
`calculate_tfidf`. -/
structure Document where
  id : Nat := 0
  url : String := ""
  vocab : List (Nat × Nat) := []
  wordvec : List WordScore := []
  deriving Repr, DecidableEq

/-- `Document()` — the default-constructed document `main.cpp` pushes as
the poison/terminator marker: its `wordvec` is empty. -/
def emptyDocument : Document := {}

/-- The worker's poison test (`buffer.wordvec.empty()` in the worker
lambda of `main.cpp`). -/
def isTerminator (d : Document) : Bool := d.wordvec.isEmpty

/-- Modelled from the spec: the merge-join loop of the Alignment Scorer
(§4.3); `document.cpp`, which implements the declared
`calculate_alignment`, is not among the provided sources. Two cursors
walk the two ascending-sorted weight sequences; on equal hashes the
product of the weights is accumulated into the running total and both
cursors advance; on unequal hashes the cursor at the smaller hash
advances; the loop stops when either sequence is exhausted. -/
def alignment_go : List WordScore → List WordScore → Rat → Rat
  | [], _, acc => acc
  | _ :: _, [], acc => acc
  | x :: xs, y :: ys, acc =>
    if x.hash = y.hash then alignment_go xs ys (acc + x.tfidf * y.tfidf)
    else if x.hash < y.hash then alignment_go xs (y :: ys) acc
    else alignment_go (x :: xs) ys acc
  termination_by a b _ => a.length + b.length

/-- Modelled from the spec: `calculate_alignment` (declared in
`document.h`, described in §4.3) runs the merge-join over the two
documents' weight vectors starting from a zero total. -/
def calculate_alignment (left right : Document) : Rat :=
  alignment_go left.wordvec right.wordvec 0

/-- Whether a weight sequence has an entry for term hash `h`. -/
def hasHash (l : List WordScore) (h : Nat) : Bool :=
  l.any (fun x => x.hash = h)

/-- The weight attached to term hash `h` in a weight sequence
(`0` when absent). -/
def lookupW (l : List WordScore) (h : Nat) : Rat :=
  match l.find? (fun x => x.hash = h) with
  | some x => x.tfidf
  | none => 0

/-- The specification's reference value for the alignment score: the sum,
over the entries of `a` whose term hash also occurs in `b`, of the
product of the two corresponding weights. -/
def sharedSum (a b : List WordScore) : Rat :=
  ((a.filter (fun x => hasHash b x.hash)).map
    (fun x => x.tfidf * lookupW b x.hash)).sum

/-- Strict ascending sortedness of a weight sequence by term hash — the
Scored Document invariant of §3. -/
abbrev SortedByHash (l : List WordScore) : Prop :=
  l.Pairwise (fun x y => x.hash < y.hash)

/-! ## Document-frequency aggregation (`main.cpp` lines 137–141) -/

/-- `df[t] += 1`: `std::map::operator[]` default-constructs an absent
count at `0`, then the entry is incremented. -/
def dfInsert (df : Nat → Nat) (t : Nat) : Nat → Nat :=
  fun u => if u = t then df t + 1 else df u

/-- The aggregation pass: for each reference document and each entry of
its `vocab`, increment that entry's key in the table, starting from the
empty table. -/
def aggregateDF (docs : List Document) : Nat → Nat :=
  docs.foldl (fun df d => d.vocab.foldl (fun df e => dfInsert df e.1) df) (fun _ => 0)

/-- The pass reads the documents through `const` references: it yields
the table and hands the document list back unchanged. -/
def dfPass (docs : List Document) : List Document × (Nat → Nat) :=
  (docs, aggregateDF docs)

/-! ## TF-IDF transform (declared in `document.h`, spec §4.2) -/

/-- Modelled from the spec: the weight vector produced by the TF-IDF
transform; `document.cpp`, which implements the declared
`calculate_tfidf`, is not among the provided sources, and §9 leaves the
exact weight formula open. The transform is therefore parametrized by a
weight function `w` taking the term's occurrence count, the total
document count and the term's document frequency, returning `none` when
the term is filtered out. Each `vocab` entry (iterated in `std::map`
ascending-key order) contributes its weighted score. -/
def tfidfVec (w : Nat → Nat → Nat → Option Rat) (vocab : List (Nat × Nat))
    (document_count : Nat) (df : Nat → Nat) : List WordScore :=
  vocab.filterMap (fun e => (w e.2 document_count (df e.1)).map
    (fun t => { hash := e.1, tfidf := t }))

/-- Modelled from the spec: `calculate_tfidf` fills the document's
`wordvec` from its `vocab`, the total document count and the
document-frequency table (§4.2); the raw `vocab` is cleared separately
by the caller. -/
def calculate_tfidf (w : Nat → Nat → Nat → Option Rat) (document : Document)
    (document_count : Nat) (df : Nat → Nat) : Document :=
  { document with wordvec := tfidfVec w document.vocab document_count df }

/-- `document.vocab.clear()` — the memory-reclaiming step after the
transform. -/
def clearVocab (d : Document) : Document := { d with vocab := [] }

/-- The reference-corpus transform loop (`main.cpp` lines 147–153):
every loaded document — with no emptiness check of any kind — has its
TF-IDF scores computed against the corpus size and the aggregated table,
and its raw vocab cleared. -/
def transformRefs (w : Nat → Nat → Nat → Option Rat) (docs : List Document) :
    List Document :=
  docs.map (fun d => clearVocab (calculate_tfidf w d docs.length (aggregateDF docs)))

/-! ## Worker scoring loop (`main.cpp` lines 184–190) -/

/-- The per-candidate scoring loop of the worker lambda: fold over the
reference corpus, incrementing the shared hit counter exactly when
`score >= threshold`. -/
def workerHits (documents : List Document) (threshold : Rat) (buffer : Document) : Nat :=
  documents.foldl (fun hits document =>
    if threshold ≤ calculate_alignment document buffer then hits + 1 else hits) 0

/-! ## The blocking queue (`main.cpp` lines 24–77)

The queue is embedded as a labelled transition system over its
observable completed operations: a `push` can complete only from a
state whose buffer is below capacity (otherwise the pushing thread waits
on `_removed`), a `pop` only from a nonempty buffer (otherwise the
popping thread waits on `_added`). The state records the buffer together
with the full serialized history of completed pushes and pops. -/

/-- One completed queue operation. -/
inductive QEvent (α : Type) where
  | push (x : α)
  | pop (x : α)

/-- Queue history state: current buffer contents plus the serialized
sequences of items pushed and popped so far. -/
structure QState (α : Type) where
  buffer : List α
  pushed : List α
  popped : List α

/-- A freshly constructed queue: empty buffer, empty history. -/
def qInit (α : Type) : QState α := ⟨[], [], []⟩

/-- The transition relation of `blocking_queue` with capacity `cap`
(the `_size` member fixed by the constructor): `push` appends to the
back when `_buffer.size() < _size`; `pop` removes the front when the
buffer is nonempty. -/
inductive QStep (cap : Nat) {α : Type} : QState α → QEvent α → QState α → Prop
  | push (s : QState α) (x : α) (h : s.buffer.length < cap) :
      QStep cap s (.push x) ⟨s.buffer ++ [x], s.pushed ++ [x], s.popped⟩
  | pop (s : QState α) (x : α) (rest : List α) (h : s.buffer = x :: rest) :
      QStep cap s (.pop x) ⟨rest, s.pushed, s.popped ++ [x]⟩

/-- Reachability of a queue state by some finite sequence of completed
operations from the fresh queue. -/
def QReach (cap : Nat) {α : Type} (s : QState α) : Prop :=
  Relation.ReflTransGen (fun a b => ∃ e, QStep cap a e b) (qInit α) s

/-! ## Worker pool and shutdown (`main.cpp` lines 175–202, 240)

The pool of `W` workers sharing the queue is embedded as a transition
system: each step is one worker's `pop()` of the queue front. A worker
that popped the poison document has left its loop (`break`) and is
`done`; the guard `done i = false` embeds "a finished worker never pops
again", and no transition ever adds to the queue — workers never push,
so in particular a popped terminator is never requeued. -/

/-- The terminator markers `stop` pushes (`main.cpp` lines 194–198): one
default-constructed `Document()` per worker. -/
def stopPushes (W : Nat) : List Document := List.replicate W emptyDocument

/-- Pool state: items not yet popped, and per worker the items it has
consumed and whether it has exited its loop. -/
structure PoolState (W : Nat) where
  queue : List Document
  consumed : Fin W → List Document
  done : Fin W → Bool

/-- Initial pool state: every worker inside its loop, nothing consumed. -/
def initPool (W : Nat) (q : List Document) : PoolState W :=
  ⟨q, fun _ => [], fun _ => false⟩

/-- The state after worker `i` pops the front item `d`: the item moves
from the queue to `i`'s consumed list, and `i` is done exactly when `d`
is the poison document. -/
def dispatch {W : Nat} (s : PoolState W) (i : Fin W) (d : Document)
    (rest : List Document) : PoolState W :=
  { queue := rest
    consumed := Function.update s.consumed i (s.consumed i ++ [d])
    done := Function.update s.done i (isTerminator d) }

/-- One pool transition: a worker still in its loop pops the queue
front. -/
inductive PoolStep {W : Nat} : PoolState W → PoolState W → Prop
  | pop (s : PoolState W) (i : Fin W) (d : Document) (rest : List Document)
      (hactive : s.done i = false) (hq : s.queue = d :: rest) :
      PoolStep s (dispatch s i d rest)

/-! ## The two token/URL pairing read loops of `main` -/

/-- The reference-side read loop (`main.cpp` lines 124–131): while a
token document can be read, read its URL; a missing URL reports the
current `documents.size()` and exits with status `2`; a document whose
URL was read is appended. The loop ends as soon as the token stream is
exhausted, leaving any surplus URLs unread. -/
def readRefs (docsAcc : List Document) :
    List Document → List String → Except (Nat × Nat) (List Document)
  | [], _ => .ok docsAcc
  | _ :: _, [] => .error (2, docsAcc.length)
  | t :: ts, u :: us => readRefs (docsAcc ++ [{ t with url := u }]) ts us

/-- Outcome of the candidate loop plus shutdown (`main.cpp` lines
204–243): the process exit status, the index reported with an error (if
any), whether the shutdown protocol (`stop()`: push terminators, join
workers) ran, the documents pushed onto the work queue, and the
document-frequency table as left behind by the loop. -/
structure RunResult where
  exitCode : Nat
  errIndex : Option Nat
  stopped : Bool
  pushed : List Document
  df : Nat → Nat

/-- The per-candidate body of the loop before the poison check: assign
the URL read for the document, run `calculate_tfidf` against the
reference table and reference count, and clear the raw vocab
(`main.cpp` lines 210, 225, 227). -/
def candidateTransform (w : Nat → Nat → Nat → Option Rat) (df : Nat → Nat)
    (document_count : Nat) (t : Document) (u : String) : Document :=
  clearVocab (calculate_tfidf w { t with url := u } document_count df)

/-- The candidate-side loop of `main.cpp` (lines 204–240): read a token
document (stream exhausted → `stop()` and succeed), read its URL
(missing → `stop()`, status `3`, reporting the pre-increment index `n`),
increment `n`, reject an empty `vocab` (`stop()`, status `4`), transform
with the reference table `df` and reference count, clear the raw vocab,
reject an empty `wordvec` (`stop()`, status `5`), otherwise push and
continue. The table `df` is threaded through unchanged — the loop never
writes to it. -/
def candidateLoop (w : Nat → Nat → Nat → Option Rat) (df : Nat → Nat)
    (document_count : Nat) :
    Nat → List Document → List Document → List String → RunResult
  | _, pushed, [], _ => ⟨0, none, true, pushed, df⟩
  | n, pushed, _ :: _, [] => ⟨3, some n, true, pushed, df⟩
  | n, pushed, t :: ts, u :: us =>
    if t.vocab.isEmpty then ⟨4, some (n + 1), true, pushed, df⟩
    else if (candidateTransform w df document_count t u).wordvec.isEmpty then
      ⟨5, some (n + 1), true, pushed, df⟩
    else candidateLoop w df document_count (n + 1)
      (pushed ++ [candidateTransform w df document_count t u]) ts us

/-- The whole-run wiring of `main`: the reference table is aggregated
from the reference documents alone, and the candidate loop is entered
with that table, the reference count `documents.size()`, index `0` and
nothing pushed. -/
def runCandidates (w : Nat → Nat → Nat → Option Rat) (refs : List Document)
    (cands : List Document) (urls : List String) : RunResult :=
  candidateLoop w (aggregateDF refs) refs.length 0 [] cands urls

/-! ## Theorems -/

theorem alignment_go_nil_right (a : List WordScore) (acc : Rat) :
    alignment_go a [] acc = acc := by
  cases a <;> simp [alignment_go]

theorem sharedSum_nil_right (a : List WordScore) : sharedSum a [] = 0 := by
  simp [sharedSum, hasHash]

theorem sharedSum_cons (x : WordScore) (as b : List WordScore) :
    sharedSum (x :: as) b =
      (if hasHash b x.hash then x.tfidf * lookupW b x.hash else 0) + sharedSum as b := by
  cases h : hasHash b x.hash <;> simp [sharedSum, List.filter_cons, h]

theorem hasHash_eq_false_of_ne (l : List WordScore) (h : Nat)
    (hne : ∀ z ∈ l, z.hash ≠ h) : hasHash l h = false := by
  simp only [hasHash, List.any_eq_false, decide_eq_true_eq]
  intro z hz
  exact hne z hz

theorem hasHash_cons_of_ne (y : WordScore) (bs : List WordScore) (h : Nat)
    (hne : y.hash ≠ h) : hasHash (y :: bs) h = hasHash bs h := by
  simp [hasHash, List.any_cons, hne]

theorem lookupW_cons_of_ne (y : WordScore) (bs : List WordScore) (h : Nat)
    (hne : y.hash ≠ h) : lookupW (y :: bs) h = lookupW bs h := by
  simp [lookupW, List.find?_cons, hne]

theorem lookupW_cons_self (y : WordScore) (bs : List WordScore) :
    lookupW (y :: bs) y.hash = y.tfidf := by
  simp [lookupW, List.find?_cons]

/-- Entries of `as` whose hash differs from the head of the right-hand
sequence ignore that head in the shared-sum. -/
theorem sharedSum_skip_head (as : List WordScore) (y : WordScore) (bs : List WordScore)
    (h : ∀ z ∈ as, z.hash ≠ y.hash) :
    sharedSum as (y :: bs) = sharedSum as bs := by
  induction as with
  | nil => simp [sharedSum]
  | cons z zs ih =>
    have hz : y.hash ≠ z.hash := fun e => (h z (by simp)) e.symm
    rw [sharedSum_cons, sharedSum_cons, hasHash_cons_of_ne y bs z.hash hz,
      lookupW_cons_of_ne y bs z.hash hz, ih (fun w hw => h w (by simp [hw]))]

/-- The merge-join accumulates exactly the shared-hash products: for
ascending-sorted inputs, `alignment_go a b acc` is `acc` plus the sum of
`weightA * weightB` over the term hashes present in both sequences. -/
theorem alignment_go_eq_sharedSum (a b : List WordScore) (acc : Rat) :
    SortedByHash a → SortedByHash b → alignment_go a b acc = acc + sharedSum a b := by
  induction a, b, acc using alignment_go.induct with
  | case1 b acc =>
    intro _ _
    simp [alignment_go, sharedSum]
  | case2 x xs acc =>
    intro _ _
    simp [alignment_go, sharedSum_nil_right]
  | case3 x xs y ys acc heq ih =>
    intro ha hb
    have hxs := List.pairwise_cons.mp ha
    have hys := List.pairwise_cons.mp hb
    have hskip : ∀ z ∈ xs, z.hash ≠ y.hash := fun z hz => by
      have := hxs.1 z hz
      omega
    rw [alignment_go, if_pos heq, ih hxs.2 hys.2, sharedSum_cons,
      sharedSum_skip_head xs y ys hskip, heq, lookupW_cons_self]
    have hh : hasHash (y :: ys) y.hash = true := by simp [hasHash]
    rw [hh, if_pos rfl]
    ring
  | case4 x xs y ys acc hne hlt ih =>
    intro ha hb
    have hxs := List.pairwise_cons.mp ha
    have habs : hasHash (y :: ys) x.hash = false := by
      apply hasHash_eq_false_of_ne
      intro z hz
      rcases List.mem_cons.mp hz with h | h
      · subst h; omega
      · have := (List.pairwise_cons.mp hb).1 z h
        omega
    rw [alignment_go, if_neg hne, if_pos hlt, ih hxs.2 hb, sharedSum_cons, habs]
    simp
  | case5 x xs y ys acc hne hnlt ih =>
    intro ha hb
    have hys := List.pairwise_cons.mp hb
    have hgt : y.hash < x.hash := by omega
    have hskip : ∀ z ∈ x :: xs, z.hash ≠ y.hash := by
      intro z hz
      rcases List.mem_cons.mp hz with h | h
      · subst h; omega
      · have := (List.pairwise_cons.mp ha).1 z h
        omega
    rw [alignment_go, if_neg hne, if_neg hnlt, ih ha hys.2,
      sharedSum_skip_head (x :: xs) y ys hskip]

/-- The merge-join is symmetric in its two sequences for arbitrary
inputs: weight products commute and the cursor moves mirror each other. -/
theorem alignment_go_comm (a b : List WordScore) (acc : Rat) :
    alignment_go a b acc = alignment_go b a acc := by
  induction a, b, acc using alignment_go.induct with
  | case1 b acc => simp [alignment_go, alignment_go_nil_right]
  | case2 x xs acc => simp [alignment_go, alignment_go_nil_right]
  | case3 x xs y ys acc heq ih =>
    rw [alignment_go, if_pos heq]
    rw [show alignment_go (y :: ys) (x :: xs) acc = alignment_go ys xs (acc + y.tfidf * x.tfidf) by
      rw [alignment_go, if_pos heq.symm]]
    rw [mul_comm y.tfidf x.tfidf, ih]
  | case4 x xs y ys acc hne hlt ih =>
    rw [alignment_go, if_neg hne, if_pos hlt]
    rw [show alignment_go (y :: ys) (x :: xs) acc = alignment_go (y :: ys) xs acc by
      rw [alignment_go, if_neg (fun e => hne e.symm), if_neg (by omega)]]
    exact ih
  | case5 x xs y ys acc hne hnlt ih =>
    rw [alignment_go, if_neg hne, if_neg hnlt]
    rw [show alignment_go (y :: ys) (x :: xs) acc = alignment_go ys (x :: xs) acc by
      rw [alignment_go, if_neg (fun e => hne e.symm), if_pos (by omega)]]
    exact ih

/-- **C1.** For every pair of Scored Documents `a` and `b` whose weight
sequences are sorted ascending by term hash, `calculate_alignment a b`
returns exactly the sum, over term hashes present in both sequences, of
the product of the two corresponding weights, regardless of how the
non-shared term hashes interleave; and the result is symmetric in its
two arguments. -/
theorem calculate_alignment_spec (a b : Document)
    (ha : SortedByHash a.wordvec) (hb : SortedByHash b.wordvec) :
    calculate_alignment a b = sharedSum a.wordvec b.wordvec ∧
    ∀ c d : Document, calculate_alignment c d = calculate_alignment d c := by
  constructor
  · have h := alignment_go_eq_sharedSum a.wordvec b.wordvec 0 ha hb
    rw [calculate_alignment, h, zero_add]
  · intro c d
    exact alignment_go_comm c.wordvec d.wordvec 0

/-- Witness for C1 at the spec's §8 example vectors. -/
theorem calculate_alignment_spec_witness :
    calculate_alignment
        ⟨0, "", [], [⟨1, 1/2⟩, ⟨3, 1/5⟩, ⟨5, 9/10⟩]⟩
        ⟨1, "", [], [⟨2, 2/5⟩, ⟨3, 1/10⟩, ⟨5, 3/10⟩]⟩ =
      sharedSum [⟨1, 1/2⟩, ⟨3, 1/5⟩, ⟨5, 9/10⟩] [⟨2, 2/5⟩, ⟨3, 1/10⟩, ⟨5, 3/10⟩] ∧
    ∀ c d : Document, calculate_alignment c d = calculate_alignment d c :=
  calculate_alignment_spec
    ⟨0, "", [], [⟨1, 1/2⟩, ⟨3, 1/5⟩, ⟨5, 9/10⟩]⟩
    ⟨1, "", [], [⟨2, 2/5⟩, ⟨3, 1/10⟩, ⟨5, 3/10⟩]⟩
    (by decide) (by decide)

theorem dfFoldVocab (t : Nat) (vocab : List (Nat × Nat)) :
    ∀ df : Nat → Nat, (vocab.foldl (fun df e => dfInsert df e.1) df) t =
      df t + vocab.countP (fun e => e.1 = t) := by
  induction vocab with
  | nil => intro df; simp
  | cons e es ih =>
    intro df
    rw [List.foldl_cons, ih, List.countP_cons]
    by_cases h : e.1 = t
    · subst h; simp [dfInsert]; omega
    · simp [dfInsert, h, Ne.symm h]

theorem countP_key_nodup (t : Nat) (vocab : List (Nat × Nat))
    (hnd : (vocab.map Prod.fst).Nodup) :
    vocab.countP (fun e => e.1 = t) = if vocab.any (fun e => e.1 = t) then 1 else 0 := by
  induction vocab with
  | nil => simp
  | cons e es ih =>
    rw [List.map_cons, List.nodup_cons] at hnd
    rw [List.countP_cons, List.any_cons, ih hnd.2]
    by_cases h : e.1 = t
    · have hse : es.any (fun e' => e'.1 = t) = false := by
        simp only [List.any_eq_false, decide_eq_true_eq]
        intro e' he' ht
        have hm : e'.1 ∈ es.map Prod.fst := List.mem_map_of_mem Prod.fst he'
        rw [ht, ← h] at hm
        exact hnd.1 hm
      simp [h, hse]
    · rw [decide_eq_false h]
      cases hx : es.any (fun e' => e'.1 = t) <;> simp [hx]

theorem aggregateDF_go (t : Nat) (docs : List Document) :
    ∀ df : Nat → Nat,
      (docs.foldl (fun df d => d.vocab.foldl (fun df e => dfInsert df e.1) df) df) t =
        df t + (docs.map (fun d => d.vocab.countP (fun e => e.1 = t))).sum := by
  induction docs with
  | nil => intro df; simp
  | cons d ds ih =>
    intro df
    rw [List.foldl_cons, ih, dfFoldVocab, List.map_cons, List.sum_cons]
    omega

theorem sum_indicator_countP (p : Document → Bool) (docs : List Document) :
    (docs.map (fun d => if p d then 1 else 0)).sum = docs.countP p := by
  induction docs with
  | nil => simp
  | cons d ds ih =>
    rw [List.map_cons, List.sum_cons, List.countP_cons, ih]
    by_cases h : p d <;> simp [h] <;> omega

/-- **C2.** The document-frequency table produced by the aggregation pass
maps each term hash to the number of distinct reference documents whose
vocab contains it — each document contributing at most `1` to each
term's count irrespective of that term's occurrence count inside the
document — and the input documents come back from the pass unchanged.
(The hypothesis is the `std::map` key-uniqueness of each `vocab`.) -/
theorem aggregateDF_spec (docs : List Document) (t : Nat)
    (hnd : ∀ d ∈ docs, (d.vocab.map Prod.fst).Nodup) :
    aggregateDF docs t = docs.countP (fun d => d.vocab.any (fun e => e.1 = t)) ∧
    (dfPass docs).1 = docs := by
  refine ⟨?_, rfl⟩
  rw [aggregateDF, aggregateDF_go]
  have hmap : docs.map (fun d => d.vocab.countP (fun e => e.1 = t)) =
      docs.map (fun d => if d.vocab.any (fun e => e.1 = t) then 1 else 0) := by
    apply List.map_congr_left
    intro d hd
    exact countP_key_nodup t d.vocab (hnd d hd)
  rw [hmap, sum_indicator_countP]
  omega

/-- Witness for C2: a 3-document corpus where hash `7` occurs 100 times
in the first document, 3 times in the second and never in the third. -/
theorem aggregateDF_spec_witness :
    aggregateDF
        ([⟨0, "a", [(7, 100), (9, 1)], []⟩, ⟨1, "b", [(7, 3)], []⟩,
          ⟨2, "c", [(9, 2)], []⟩] : List Document) 7 =
      List.countP (fun d => d.vocab.any (fun e => e.1 = 7))
        ([⟨0, "a", [(7, 100), (9, 1)], []⟩, ⟨1, "b", [(7, 3)], []⟩,
          ⟨2, "c", [(9, 2)], []⟩] : List Document) ∧
    (dfPass ([⟨0, "a", [(7, 100), (9, 1)], []⟩, ⟨1, "b", [(7, 3)], []⟩,
          ⟨2, "c", [(9, 2)], []⟩] : List Document)).1 =
      ([⟨0, "a", [(7, 100), (9, 1)], []⟩, ⟨1, "b", [(7, 3)], []⟩,
          ⟨2, "c", [(9, 2)], []⟩] : List Document) :=
  aggregateDF_spec
    ([⟨0, "a", [(7, 100), (9, 1)], []⟩, ⟨1, "b", [(7, 3)], []⟩,
      ⟨2, "c", [(9, 2)], []⟩] : List Document) 7
    (by decide)

theorem workerHits_go (documents : List Document) (threshold : Rat) (buffer : Document) :
    ∀ n : Nat,
      documents.foldl
        (fun hits d => if threshold ≤ calculate_alignment d buffer then hits + 1 else hits) n =
      n + documents.countP (fun d => threshold ≤ calculate_alignment d buffer) := by
  induction documents with
  | nil => simp
  | cons d ds ih =>
    intro n
    rw [List.foldl_cons, List.countP_cons, ih]
    by_cases h : threshold ≤ calculate_alignment d buffer <;> simp [h] <;> omega

/-- **C6.** For every non-terminator candidate popped by a worker, the
scoring loop increments the shared hit counter exactly once for each
reference document whose alignment score against the candidate meets or
exceeds the threshold; reference documents scoring strictly below the
threshold cause no increment. -/
theorem workerHits_spec (documents : List Document) (threshold : Rat) (buffer : Document) :
    workerHits documents threshold buffer =
      documents.countP (fun d => threshold ≤ calculate_alignment d buffer) := by
  rw [workerHits, workerHits_go, Nat.zero_add]

/-- The single inductive invariant of the blocking queue: the push
history is the pop history followed by the buffer, and the buffer never
exceeds the capacity. -/
theorem qreach_invariant {α : Type} (cap : Nat) (s : QState α) (h : QReach cap s) :
    s.pushed = s.popped ++ s.buffer ∧ s.buffer.length ≤ cap := by
  induction h with
  | refl => simp [qInit]
  | tail hab hstep ih =>
    obtain ⟨e, hst⟩ := hstep
    cases hst with
    | push x hlt =>
      refine ⟨?_, by simpa using hlt⟩
      simp [ih.1]
    | pop x rest hq =>
      refine ⟨?_, ?_⟩
      · have := ih.1
        rw [hq] at this
        simp [this]
      · have := ih.2
        rw [hq] at this
        simp at this ⊢
        omega

/-- **C4.** No queue item is ever lost or duplicated: in every reachable
state the pushed history equals the popped history followed by the
buffer — so the popped items are a prefix of the pushed items (items are
popped in exactly serialized push order, the single-producer case), the
multiset of popped plus buffered items is the multiset of pushed items,
and once the buffer is drained the popped sequence is exactly the pushed
sequence. -/
theorem queue_no_loss_spec {α : Type} (cap : Nat) (s : QState α) (h : QReach cap s) :
    s.pushed = s.popped ++ s.buffer ∧
    s.popped <+: s.pushed ∧
    (s.buffer = [] → s.popped = s.pushed) ∧
    (s.pushed : Multiset α) = (s.popped : Multiset α) + (s.buffer : Multiset α) := by
  have hinv := (qreach_invariant cap s h).1
  refine ⟨hinv, ⟨s.buffer, hinv.symm⟩, ?_, ?_⟩
  · intro hb
    rw [hinv, hb, List.append_nil]
  · rw [hinv]
    simp

/-- Witness for C4: capacity 2, run `push "a"; push "b"; pop "a"`. -/
theorem queue_no_loss_spec_witness :
    (QState.mk ["b"] ["a", "b"] ["a"] : QState String).pushed =
        (QState.mk ["b"] ["a", "b"] ["a"] : QState String).popped ++
          (QState.mk ["b"] ["a", "b"] ["a"] : QState String).buffer ∧
    (QState.mk ["b"] ["a", "b"] ["a"] : QState String).popped <+:
        (QState.mk ["b"] ["a", "b"] ["a"] : QState String).pushed ∧
    ((QState.mk ["b"] ["a", "b"] ["a"] : QState String).buffer = [] →
        (QState.mk ["b"] ["a", "b"] ["a"] : QState String).popped =
          (QState.mk ["b"] ["a", "b"] ["a"] : QState String).pushed) ∧
    ((QState.mk ["b"] ["a", "b"] ["a"] : QState String).pushed : Multiset String) =
        ((QState.mk ["b"] ["a", "b"] ["a"] : QState String).popped : Multiset String) +
          ((QState.mk ["b"] ["a", "b"] ["a"] : QState String).buffer : Multiset String) :=
  queue_no_loss_spec 2 ⟨["b"], ["a", "b"], ["a"]⟩
    (Relation.ReflTransGen.tail
      (Relation.ReflTransGen.tail
        (Relation.ReflTransGen.tail Relation.ReflTransGen.refl
          ⟨QEvent.push "a", QStep.push (qInit String) "a" (by simp [qInit])⟩)
        ⟨QEvent.push "b", QStep.push ⟨["a"], ["a"], []⟩ "b" (by simp)⟩)
      ⟨QEvent.pop "a", QStep.pop ⟨["a", "b"], ["a", "b"], []⟩ "a" ["b"] rfl⟩)

/-- **C5.** The queue's capacity is the fixed construction parameter
`cap` of its transition relation, and in every reachable state the
buffer holds at most `cap` items; from a state at capacity the only
operation that can complete is a `pop` (a `push` stays blocked until a
pop has removed an item), and from an empty buffer no `pop` can
complete. -/
theorem queue_capacity_spec {α : Type} (cap : Nat) (s : QState α) (h : QReach cap s) :
    s.buffer.length ≤ cap ∧
    (s.buffer.length = cap →
      ∀ (e : QEvent α) (s' : QState α), QStep cap s e s' → ∃ x, e = QEvent.pop x) ∧
    (s.buffer = [] → ∀ (x : α) (s' : QState α), ¬ QStep cap s (QEvent.pop x) s') := by
  refine ⟨(qreach_invariant cap s h).2, ?_, ?_⟩
  · intro hfull e s' hst
    cases hst with
    | push x hlt => omega
    | pop x rest hq => exact ⟨x, rfl⟩
  · intro hb x s' hst
    cases hst with
    | pop x rest hq =>
      rw [hb] at hq
      exact List.noConfusion hq

/-- Witness for C5: capacity 1, after one completed `push "a"` the queue
is full. -/
theorem queue_capacity_spec_witness :
    (QState.mk ["a"] ["a"] [] : QState String).buffer.length ≤ 1 ∧
    ((QState.mk ["a"] ["a"] [] : QState String).buffer.length = 1 →
      ∀ (e : QEvent String) (s' : QState String),
        QStep 1 (QState.mk ["a"] ["a"] []) e s' → ∃ x, e = QEvent.pop x) ∧
    ((QState.mk ["a"] ["a"] [] : QState String).buffer = [] →
      ∀ (x : String) (s' : QState String),
        ¬ QStep 1 (QState.mk ["a"] ["a"] []) (QEvent.pop x) s') :=
  queue_capacity_spec 1 ⟨["a"], ["a"], []⟩
    (Relation.ReflTransGen.single
      ⟨QEvent.push "a", QStep.push (qInit String) "a" (by simp [qInit])⟩)

/-- Preservation step for the pool invariant: a worker's consumed list
contains a terminator exactly when the worker is done (and then exactly
one), and terminators are conserved between the queue and the workers'
consumed lists. -/
theorem pool_inv_step {W : Nat} (T0 : Nat) (s s' : PoolState W) (hstep : PoolStep s s')
    (h1 : ∀ i, (s.consumed i).countP isTerminator = if s.done i then 1 else 0)
    (h2 : s.queue.countP isTerminator + ∑ i : Fin W, (s.consumed i).countP isTerminator = T0) :
    (∀ i, (s'.consumed i).countP isTerminator = if s'.done i then 1 else 0) ∧
      s'.queue.countP isTerminator + ∑ i : Fin W, (s'.consumed i).countP isTerminator = T0 := by
  cases hstep with
  | pop i d rest hactive hq =>
    have hupd : ∀ j, ((dispatch s i d rest).consumed j).countP isTerminator =
        Function.update (fun j => (s.consumed j).countP isTerminator) i
          ((s.consumed i ++ [d]).countP isTerminator) j := by
      intro j
      simp only [dispatch]
      exact Function.apply_update (fun _ l => List.countP isTerminator l) s.consumed i
        (s.consumed i ++ [d]) j
    refine ⟨?_, ?_⟩
    · intro j
      rw [hupd j]
      by_cases hji : j = i
      · subst hji
        rw [Function.update_same]
        simp only [dispatch, Function.update_same]
        rw [List.countP_append, h1 j, hactive]
        simp [List.countP_cons]
      · rw [Function.update_noteq hji]
        simp only [dispatch, Function.update_noteq hji]
        exact h1 j
    · rw [hq, List.countP_cons] at h2
      have hsum : ∑ j : Fin W, ((dispatch s i d rest).consumed j).countP isTerminator =
          (s.consumed i ++ [d]).countP isTerminator +
            ∑ j in Finset.univ \ {i}, (s.consumed j).countP isTerminator := by
        rw [Finset.sum_congr rfl (fun j _ => hupd j)]
        exact Finset.sum_update_of_mem (Finset.mem_univ i) _ _
      have hold : ∑ j : Fin W, (s.consumed j).countP isTerminator =
          (∑ j in Finset.univ \ {i}, (s.consumed j).countP isTerminator) +
            (s.consumed i).countP isTerminator :=
        Finset.sum_eq_sum_diff_singleton_add (Finset.mem_univ i) _
      have hqd : (dispatch s i d rest).queue = rest := rfl
      rw [hqd, hsum, List.countP_append]
      rw [hold] at h2
      simp only [List.countP_cons, List.countP_nil] at *
      omega

/-- The pool invariant holds in every reachable pool state. -/
theorem pool_invariant {W : Nat} (q0 : List Document) (s : PoolState W)
    (h : Relation.ReflTransGen PoolStep (initPool W q0) s) :
    (∀ i, (s.consumed i).countP isTerminator = if s.done i then 1 else 0) ∧
    s.queue.countP isTerminator + ∑ i : Fin W, (s.consumed i).countP isTerminator =
      q0.countP isTerminator := by
  induction h with
  | refl => exact ⟨fun i => by simp [initPool], by simp [initPool]⟩
  | tail hab hstep ih => exact pool_inv_step _ _ _ hstep ih.1 ih.2

/-- **C3.** The shutdown protocol: after a terminator-free candidate
stream, `stop()` pushes exactly `W` terminator markers (Documents with
an empty weight vector); every pool step removes exactly one queue item
(a worker never requeues anything), a finished worker never pops again;
and in any reachable state where the queue has been drained, every one
of the `W` workers has terminated having consumed exactly one
terminator. -/
theorem shutdown_spec (W : Nat) (cands : List Document)
    (hc : ∀ d ∈ cands, isTerminator d = false)
    (s : PoolState W)
    (hreach : Relation.ReflTransGen PoolStep (initPool W (cands ++ stopPushes W)) s)
    (hdrained : s.queue = []) :
    (stopPushes W).length = W ∧
    (∀ d ∈ stopPushes W, isTerminator d = true) ∧
    (∀ s₁ s₂ : PoolState W, PoolStep s₁ s₂ → s₂.queue.length + 1 = s₁.queue.length) ∧
    (∀ s₁ s₂ : PoolState W, PoolStep s₁ s₂ → ∀ i, s₁.done i = true →
      s₂.consumed i = s₁.consumed i ∧ s₂.done i = true) ∧
    (∀ i, s.done i = true) ∧
    (∀ i, (s.consumed i).countP isTerminator = 1) := by
  have hterm : ∀ d ∈ stopPushes W, isTerminator d = true := by
    intro d hd
    rw [List.eq_of_mem_replicate hd]
    rfl
  have hT0 : (cands ++ stopPushes W).countP isTerminator = W := by
    rw [List.countP_append]
    have h0 : cands.countP isTerminator = 0 := by
      rw [List.countP_eq_zero]
      intro d hd
      simp [hc d hd]
    have hW : (stopPushes W).countP isTerminator = (stopPushes W).length := by
      rw [List.countP_eq_length]
      exact hterm
    rw [h0, hW]
    simp [stopPushes]
  obtain ⟨hinv1, hinv2⟩ := pool_invariant _ s hreach
  rw [hdrained, hT0] at hinv2
  simp only [List.countP_nil, Nat.zero_add] at hinv2
  have hsum : ∑ i : Fin W, (if s.done i = true then 1 else 0) = W :=
    (Finset.sum_congr rfl (fun i _ => (hinv1 i).symm)).trans hinv2
  have hcard : (Finset.univ.filter (fun i : Fin W => s.done i = true)).card = W := by
    rw [Finset.card_filter]
    exact hsum
  have hfu : Finset.univ.filter (fun i : Fin W => s.done i = true) = Finset.univ := by
    apply Finset.eq_of_subset_of_card_le (Finset.filter_subset _ _)
    rw [hcard]
    simp
  have hdone : ∀ i, s.done i = true := by
    intro i
    have hmem : i ∈ Finset.univ.filter (fun i : Fin W => s.done i = true) := by
      rw [hfu]
      exact Finset.mem_univ i
    exact (Finset.mem_filter.mp hmem).2
  refine ⟨by simp [stopPushes], hterm, ?_, ?_, hdone, ?_⟩
  · intro s₁ s₂ hstep
    cases hstep with
    | pop i d rest hactive hq => simp [dispatch, hq]
  · intro s₁ s₂ hstep i hdone₁
    cases hstep with
    | pop j d rest hactive hq =>
      have hne : i ≠ j := fun e => by
        rw [← e, hdone₁] at hactive
        exact Bool.noConfusion hactive
      exact ⟨by simp [dispatch, Function.update_noteq hne],
        by simp [dispatch, Function.update_noteq hne, hdone₁]⟩
  · intro i
    rw [hinv1 i, hdone i]
    rfl

/-- Witness for C3: one worker, an empty candidate stream, one pushed
terminator, a single pop draining the queue. -/
theorem shutdown_spec_witness :
    (stopPushes 1).length = 1 ∧
    (∀ d ∈ stopPushes 1, isTerminator d = true) ∧
    (∀ s₁ s₂ : PoolState 1, PoolStep s₁ s₂ → s₂.queue.length + 1 = s₁.queue.length) ∧
    (∀ s₁ s₂ : PoolState 1, PoolStep s₁ s₂ → ∀ i, s₁.done i = true →
      s₂.consumed i = s₁.consumed i ∧ s₂.done i = true) ∧
    (∀ i, (dispatch (initPool 1 ([] ++ stopPushes 1)) 0 emptyDocument []).done i = true) ∧
    (∀ i, ((dispatch (initPool 1 ([] ++ stopPushes 1)) 0 emptyDocument []).consumed i).countP
        isTerminator = 1) :=
  shutdown_spec 1 [] (by simp)
    (dispatch (initPool 1 ([] ++ stopPushes 1)) 0 emptyDocument [])
    (Relation.ReflTransGen.single
      (PoolStep.pop (initPool 1 ([] ++ stopPushes 1)) 0 emptyDocument [] rfl rfl))
    rfl

/-- The candidate loop threads the document-frequency table through
unchanged: the table it finishes with is the table it started with. -/
theorem candidateLoop_df (w : Nat → Nat → Nat → Option Rat) (df : Nat → Nat)
    (dc : Nat) :
    ∀ (ts : List Document) (us : List String) (n : Nat) (pushed : List Document),
      (candidateLoop w df dc n pushed ts us).df = df := by
  intro ts
  induction ts with
  | nil => intro us n pushed; rfl
  | cons t ts ih =>
    intro us n pushed
    cases us with
    | nil => rfl
    | cons u us =>
      rw [candidateLoop]
      by_cases h1 : t.vocab.isEmpty = true
      · rw [if_pos h1]
      · rw [if_neg h1]
        by_cases h2 : (candidateTransform w df dc t u).wordvec.isEmpty = true
        · rw [if_pos h2]
        · rw [if_neg h2]
          exact ih us (n + 1) _

/-- Everything the candidate loop pushes is the transform of a prefix of
the paired (token, URL) stream, always with the same `df` and document
count. -/
theorem candidateLoop_pushed (w : Nat → Nat → Nat → Option Rat) (df : Nat → Nat)
    (dc : Nat) :
    ∀ (ts : List Document) (us : List String) (n : Nat) (pushed : List Document),
      ∃ k, (candidateLoop w df dc n pushed ts us).pushed =
        pushed ++ ((ts.zip us).take k).map (fun p => candidateTransform w df dc p.1 p.2) := by
  intro ts
  induction ts with
  | nil =>
    intro us n pushed
    exact ⟨0, by simp [candidateLoop]⟩
  | cons t ts ih =>
    intro us n pushed
    cases us with
    | nil => exact ⟨0, by simp [candidateLoop]⟩
    | cons u us =>
      by_cases h1 : t.vocab.isEmpty = true
      · refine ⟨0, ?_⟩
        rw [candidateLoop, if_pos h1]
        simp
      · by_cases h2 : (candidateTransform w df dc t u).wordvec.isEmpty = true
        · refine ⟨0, ?_⟩
          rw [candidateLoop, if_neg h1, if_pos h2]
          simp
        · obtain ⟨k, hk⟩ := ih us (n + 1) (pushed ++ [candidateTransform w df dc t u])
          refine ⟨k + 1, ?_⟩
          rw [candidateLoop, if_neg h1, if_neg h2, hk]
          simp [List.zip_cons_cons, List.take_succ_cons]

/-- **C7.** The document-frequency table is built once, from the
reference documents only, before any candidate is processed, and the
candidate phase never writes to it: the run hands back exactly
`aggregateDF refs`, and every document pushed onto the work queue is the
transform of a (candidate, URL) pair using that same table and the
reference-corpus document count — so candidates never contribute to any
term's document frequency. -/
theorem df_immutable_spec (w : Nat → Nat → Nat → Option Rat) (refs cands : List Document)
    (urls : List String) :
    (runCandidates w refs cands urls).df = aggregateDF refs ∧
    ∃ k, (runCandidates w refs cands urls).pushed =
      ((cands.zip urls).take k).map
        (fun p => candidateTransform w (aggregateDF refs) refs.length p.1 p.2) := by
  refine ⟨candidateLoop_df w (aggregateDF refs) refs.length cands urls 0 [], ?_⟩
  obtain ⟨k, hk⟩ := candidateLoop_pushed w (aggregateDF refs) refs.length cands urls 0 []
  exact ⟨k, by simpa using hk⟩

/-- Work items on the queue always have a nonempty weight vector: a
document indistinguishable from the terminator marker is never pushed. -/
theorem candidateLoop_pushed_nonempty (w : Nat → Nat → Nat → Option Rat) (df : Nat → Nat)
    (dc : Nat) :
    ∀ (ts : List Document) (us : List String) (n : Nat) (pushed : List Document),
      (∀ x ∈ pushed, x.wordvec.isEmpty = false) →
      ∀ x ∈ (candidateLoop w df dc n pushed ts us).pushed, x.wordvec.isEmpty = false := by
  intro ts
  induction ts with
  | nil => intro us n pushed hp; exact hp
  | cons t ts ih =>
    intro us n pushed hp
    cases us with
    | nil => exact hp
    | cons u us =>
      by_cases h1 : t.vocab.isEmpty = true
      · rw [candidateLoop, if_pos h1]
        exact hp
      · by_cases h2 : (candidateTransform w df dc t u).wordvec.isEmpty = true
        · rw [candidateLoop, if_neg h1, if_pos h2]
          exact hp
        · rw [candidateLoop, if_neg h1, if_neg h2]
          apply ih
          intro x hx
          rcases List.mem_append.mp hx with h | h
          · exact hp x h
          · rw [List.mem_singleton.mp h]
            exact Bool.eq_false_iff.mpr h2

/-- Reaching the first degenerate candidate (empty transformed weight
vector) stops the loop with status 4 or 5, reporting that candidate's
1-based index, after running the shutdown protocol. -/
theorem candidateLoop_degenerate (w : Nat → Nat → Nat → Option Rat) (df : Nat → Nat)
    (dc : Nat) (bad : Document)
    (hbad : (tfidfVec w bad.vocab dc df).isEmpty = true) :
    ∀ (good rest : List Document) (urls : List String) (n : Nat) (pushed : List Document),
      (∀ t ∈ good, t.vocab.isEmpty = false ∧ (tfidfVec w t.vocab dc df).isEmpty = false) →
      good.length + 1 ≤ urls.length →
      (candidateLoop w df dc n pushed (good ++ bad :: rest) urls).exitCode =
          (if bad.vocab.isEmpty = true then 4 else 5) ∧
      (candidateLoop w df dc n pushed (good ++ bad :: rest) urls).errIndex =
          some (n + good.length + 1) ∧
      (candidateLoop w df dc n pushed (good ++ bad :: rest) urls).stopped = true := by
  intro good
  induction good with
  | nil =>
    intro rest urls n pushed hgood hlen
    cases urls with
    | nil => simp at hlen
    | cons u us =>
      have heq : candidateLoop w df dc n pushed (bad :: rest) (u :: us) =
          ⟨if bad.vocab.isEmpty = true then 4 else 5, some (n + 1), true, pushed, df⟩ := by
        by_cases h1 : bad.vocab.isEmpty = true
        · rw [candidateLoop, if_pos h1, if_pos h1]
        · have h2 : (candidateTransform w df dc bad u).wordvec.isEmpty = true := hbad
          rw [candidateLoop, if_neg h1, if_pos h2, if_neg h1]
      rw [List.nil_append, heq]
      exact ⟨rfl, by simp, rfl⟩
  | cons g gs ihg =>
    intro rest urls n pushed hgood hlen
    cases urls with
    | nil => simp at hlen
    | cons u us =>
      have hg := hgood g (by simp)
      have h2 : (candidateTransform w df dc g u).wordvec.isEmpty = false := hg.2
      have hlen2 : gs.length + 1 ≤ us.length := by
        simp at hlen
        omega
      rw [List.cons_append, candidateLoop, if_neg (by simp [hg.1]), if_neg (by simp [h2])]
      have hrec := ihg rest us (n + 1) (pushed ++ [candidateTransform w df dc g u])
        (fun x hx => hgood x (by simp [hx])) hlen2
      refine ⟨hrec.1, ?_, hrec.2.2⟩
      rw [hrec.2.1]
      simp only [List.length_cons]
      congr 1
      omega

/-- **C8.** A candidate whose TF-IDF transform yields an empty weight
vector is surfaced as an error carrying its 1-based document index, the
run is aborted through the shutdown protocol with a nonzero exit status
of its own (4 or 5, distinct from success 0 and from the pairing-error
status 3), and no document with an empty weight vector — the terminator
representation — is ever pushed onto the work queue as a work item. -/
theorem degenerate_candidate_spec (w : Nat → Nat → Nat → Option Rat)
    (refs good rest : List Document) (bad : Document) (urls : List String)
    (hgood : ∀ t ∈ good, t.vocab.isEmpty = false ∧
      (tfidfVec w t.vocab refs.length (aggregateDF refs)).isEmpty = false)
    (hbad : (tfidfVec w bad.vocab refs.length (aggregateDF refs)).isEmpty = true)
    (hurls : good.length + 1 ≤ urls.length) :
    ((runCandidates w refs (good ++ bad :: rest) urls).exitCode = 4 ∨
      (runCandidates w refs (good ++ bad :: rest) urls).exitCode = 5) ∧
    (runCandidates w refs (good ++ bad :: rest) urls).exitCode ≠ 0 ∧
    (runCandidates w refs (good ++ bad :: rest) urls).exitCode ≠ 3 ∧
    (runCandidates w refs (good ++ bad :: rest) urls).errIndex = some (good.length + 1) ∧
    (runCandidates w refs (good ++ bad :: rest) urls).stopped = true ∧
    (∀ x ∈ (runCandidates w refs (good ++ bad :: rest) urls).pushed,
      x.wordvec.isEmpty = false) := by
  obtain ⟨h1, h2, h3⟩ := candidateLoop_degenerate w (aggregateDF refs) refs.length bad hbad
    good rest urls 0 [] hgood hurls
  have hcode : (runCandidates w refs (good ++ bad :: rest) urls).exitCode = 4 ∨
      (runCandidates w refs (good ++ bad :: rest) urls).exitCode = 5 := by
    by_cases hb : bad.vocab.isEmpty = true
    · exact Or.inl (h1.trans (if_pos hb))
    · exact Or.inr (h1.trans (if_neg hb))
  refine ⟨hcode, ?_, ?_, by simpa using h2, h3, ?_⟩
  · rcases hcode with h | h <;> omega
  · rcases hcode with h | h <;> omega
  · exact candidateLoop_pushed_nonempty w (aggregateDF refs) refs.length
      (good ++ bad :: rest) urls 0 [] (by simp)

/-- Witness for C8: an empty reference corpus, a single candidate whose
every term is filtered out by the weight function, one URL. -/
theorem degenerate_candidate_spec_witness :
    ((runCandidates (fun _ _ _ => none) [] ([] ++ (⟨0, "", [(1, 1)], []⟩ : Document) :: [])
        ["u"]).exitCode = 4 ∨
      (runCandidates (fun _ _ _ => none) [] ([] ++ (⟨0, "", [(1, 1)], []⟩ : Document) :: [])
        ["u"]).exitCode = 5) ∧
    (runCandidates (fun _ _ _ => none) [] ([] ++ (⟨0, "", [(1, 1)], []⟩ : Document) :: [])
      ["u"]).exitCode ≠ 0 ∧
    (runCandidates (fun _ _ _ => none) [] ([] ++ (⟨0, "", [(1, 1)], []⟩ : Document) :: [])
      ["u"]).exitCode ≠ 3 ∧
    (runCandidates (fun _ _ _ => none) [] ([] ++ (⟨0, "", [(1, 1)], []⟩ : Document) :: [])
      ["u"]).errIndex = some (List.length ([] : List Document) + 1) ∧
    (runCandidates (fun _ _ _ => none) [] ([] ++ (⟨0, "", [(1, 1)], []⟩ : Document) :: [])
      ["u"]).stopped = true ∧
    (∀ x ∈ (runCandidates (fun _ _ _ => none) []
        ([] ++ (⟨0, "", [(1, 1)], []⟩ : Document) :: []) ["u"]).pushed,
      x.wordvec.isEmpty = false) :=
  degenerate_candidate_spec (fun _ _ _ => none) [] [] [] ⟨0, "", [(1, 1)], []⟩ ["u"]
    (by simp) rfl (by decide)

/-- **C9.** The empty-document guard applies only to the candidate
stream: the reference transform loop is total, keeps every loaded
document (in particular one with an empty vocab, whose transformed
weight vector may also be empty) with no error path of any kind, whereas
a candidate document with the identical empty vocab aborts the entire
run with status 4. -/
theorem refs_accept_empty_spec (w : Nat → Nat → Nat → Option Rat) (docs : List Document)
    (d : Document) (u : String) (df : Nat → Nat) (dc n : Nat) (pushed : List Document)
    (hmem : d ∈ docs) (hempty : d.vocab = []) :
    clearVocab (calculate_tfidf w d docs.length (aggregateDF docs)) ∈ transformRefs w docs ∧
    (transformRefs w docs).length = docs.length ∧
    (candidateLoop w df dc n pushed [d] [u]).exitCode = 4 ∧
    (candidateLoop w df dc n pushed [d] [u]).exitCode ≠ 0 := by
  have h4 : (candidateLoop w df dc n pushed [d] [u]).exitCode = 4 := by
    rw [candidateLoop, if_pos (by simp [hempty])]
  exact ⟨List.mem_map_of_mem _ hmem, by simp [transformRefs], h4, by omega⟩

/-- Witness for C9: a one-document reference corpus whose document has an
empty vocab. -/
theorem refs_accept_empty_spec_witness :
    clearVocab (calculate_tfidf (fun _ _ _ => none) ⟨0, "", [], []⟩
        [(⟨0, "", [], []⟩ : Document)].length
        (aggregateDF [(⟨0, "", [], []⟩ : Document)])) ∈
      transformRefs (fun _ _ _ => none) [(⟨0, "", [], []⟩ : Document)] ∧
    (transformRefs (fun _ _ _ => none) [(⟨0, "", [], []⟩ : Document)]).length =
      [(⟨0, "", [], []⟩ : Document)].length ∧
    (candidateLoop (fun _ _ _ => none) (fun _ => 0) 0 0 []
      [(⟨0, "", [], []⟩ : Document)] ["u"]).exitCode = 4 ∧
    (candidateLoop (fun _ _ _ => none) (fun _ => 0) 0 0 []
      [(⟨0, "", [], []⟩ : Document)] ["u"]).exitCode ≠ 0 :=
  refs_accept_empty_spec (fun _ _ _ => none) [(⟨0, "", [], []⟩ : Document)]
    ⟨0, "", [], []⟩ "u" (fun _ => 0) 0 0 [] (by simp) rfl

/-- When the URL stream is long enough, the reference read loop succeeds
with every token document paired to its URL. -/
theorem readRefs_ok (tokens : List Document) :
    ∀ (urls : List String) (acc : List Document), tokens.length ≤ urls.length →
      readRefs acc tokens urls =
        .ok (acc ++ (tokens.zip urls).map (fun p => { p.1 with url := p.2 })) := by
  induction tokens with
  | nil =>
    intro urls acc _
    simp [readRefs]
  | cons t ts ih =>
    intro urls acc hlen
    cases urls with
    | nil => simp at hlen
    | cons u us =>
      rw [readRefs, ih us _ (by simp at hlen; omega)]
      simp

/-- The reference read loop never looks past the first `tokens.length`
URLs: surplus URLs are ignored. -/
theorem readRefs_take (tokens : List Document) :
    ∀ (urls : List String) (acc : List Document),
      readRefs acc tokens urls = readRefs acc tokens (urls.take tokens.length) := by
  induction tokens with
  | nil => intro urls acc; rfl
  | cons t ts ih =>
    intro urls acc
    cases urls with
    | nil => rfl
    | cons u us => exact ih us (acc ++ [{ t with url := u }])

/-- If the URL stream runs out first, the reference read loop fails with
status 2 at the index where the URLs ran out. -/
theorem readRefs_error (tokens : List Document) :
    ∀ (urls : List String) (acc : List Document), urls.length < tokens.length →
      readRefs acc tokens urls = .error (2, acc.length + urls.length) := by
  induction tokens with
  | nil =>
    intro urls acc h
    simp at h
  | cons t ts ih =>
    intro urls acc h
    cases urls with
    | nil => simp [readRefs]
    | cons u us =>
      rw [readRefs, ih us _ (by simp at h; omega)]
      have hl : (acc ++ [{ t with url := u }]).length + us.length =
          acc.length + (u :: us).length := by
        simp
        omega
      rw [hl]

/-- The candidate loop never looks past the first `ts.length` URLs
either. -/
theorem candidateLoop_take (w : Nat → Nat → Nat → Option Rat) (df : Nat → Nat) (dc : Nat) :
    ∀ (ts : List Document) (us : List String) (n : Nat) (pushed : List Document),
      candidateLoop w df dc n pushed ts us =
        candidateLoop w df dc n pushed ts (us.take ts.length) := by
  intro ts
  induction ts with
  | nil => intro us n pushed; rfl
  | cons t ts ih =>
    intro us n pushed
    cases us with
    | nil => rfl
    | cons u us =>
      rw [List.length_cons, List.take_succ_cons, candidateLoop, candidateLoop]
      by_cases h1 : t.vocab.isEmpty = true
      · rw [if_pos h1, if_pos h1]
      · rw [if_neg h1, if_neg h1]
        by_cases h2 : (candidateTransform w df dc t u).wordvec.isEmpty = true
        · rw [if_pos h2, if_pos h2]
        · rw [if_neg h2, if_neg h2]
          exact ih us (n + 1) _

/-- With enough URLs and no degenerate candidate, the candidate loop
runs to stream exhaustion and exits with status 0. -/
theorem candidateLoop_success (w : Nat → Nat → Nat → Option Rat) (df : Nat → Nat) (dc : Nat) :
    ∀ (ts : List Document) (us : List String) (n : Nat) (pushed : List Document),
      (∀ t ∈ ts, t.vocab.isEmpty = false ∧ (tfidfVec w t.vocab dc df).isEmpty = false) →
      ts.length ≤ us.length →
      (candidateLoop w df dc n pushed ts us).exitCode = 0 := by
  intro ts
  induction ts with
  | nil => intro us n pushed _ _; rfl
  | cons t ts ih =>
    intro us n pushed hts hlen
    cases us with
    | nil => simp at hlen
    | cons u us =>
      have hg := hts t (by simp)
      have h2 : (candidateTransform w df dc t u).wordvec.isEmpty = false := hg.2
      rw [candidateLoop, if_neg (by simp [hg.1]), if_neg (by simp [h2])]
      exact ih us (n + 1) _ (fun x hx => hts x (by simp [hx])) (by simp at hlen; omega)

/-- **C10.** A token/URL pairing mismatch is detected only when the URL
stream runs out before the token stream: whenever the token stream is
exhausted first, the surplus URLs are never read (either loop's result
depends only on the first `tokens.length` URLs) and the run completes
as a success — the reference loop returns all paired documents and the
candidate loop exits with status 0 — while a shorter URL stream makes
the reference loop fail with status 2 at the point of exhaustion. -/
theorem pairing_mismatch_spec (w : Nat → Nat → Nat → Option Rat)
    (tokens cands : List Document) (urls curls : List String)
    (df : Nat → Nat) (dc : Nat)
    (hlen : tokens.length ≤ urls.length)
    (hclen : cands.length ≤ curls.length)
    (hcands : ∀ t ∈ cands, t.vocab.isEmpty = false ∧
      (tfidfVec w t.vocab dc df).isEmpty = false) :
    readRefs [] tokens urls =
      .ok ((tokens.zip urls).map (fun p => { p.1 with url := p.2 })) ∧
    readRefs [] tokens urls = readRefs [] tokens (urls.take tokens.length) ∧
    (∀ (ts : List Document) (us : List String), us.length < ts.length →
      readRefs [] ts us = .error (2, us.length)) ∧
    (candidateLoop w df dc 0 [] cands curls).exitCode = 0 ∧
    candidateLoop w df dc 0 [] cands curls =
      candidateLoop w df dc 0 [] cands (curls.take cands.length) := by
  refine ⟨by simpa using readRefs_ok tokens urls [] hlen,
    readRefs_take tokens urls [],
    ?_,
    candidateLoop_success w df dc cands curls 0 [] hcands hclen,
    candidateLoop_take w df dc cands curls 0 []⟩
  intro ts us h
  simpa using readRefs_error ts us [] h

/-- Witness for C10: one reference token document, two URLs (one
surplus), an empty candidate stream. -/
theorem pairing_mismatch_spec_witness :
    readRefs [] [(⟨0, "", [(1, 2)], []⟩ : Document)] ["a", "b"] =
      .ok (([(⟨0, "", [(1, 2)], []⟩ : Document)].zip ["a", "b"]).map
        (fun p => { p.1 with url := p.2 })) ∧
    readRefs [] [(⟨0, "", [(1, 2)], []⟩ : Document)] ["a", "b"] =
      readRefs [] [(⟨0, "", [(1, 2)], []⟩ : Document)]
        (["a", "b"].take [(⟨0, "", [(1, 2)], []⟩ : Document)].length) ∧
    (∀ (ts : List Document) (us : List String), us.length < ts.length →
      readRefs [] ts us = .error (2, us.length)) ∧
    (candidateLoop (fun _ _ _ => none) (fun _ => 0) 0 0 [] [] []).exitCode = 0 ∧
    candidateLoop (fun _ _ _ => none) (fun _ => 0) 0 0 [] [] [] =
      candidateLoop (fun _ _ _ => none) (fun _ => 0) 0 0 [] []
        (([] : List String).take ([] : List Document).length) :=
  pairing_mismatch_spec (fun _ _ _ => none) [(⟨0, "", [(1, 2)], []⟩ : Document)] []
    ["a", "b"] [] (fun _ => 0) 0 (by decide) (by decide) (by simp)

end DocAligner
